import Mathlib

/-!
# Verification of the `trie` repository (src/trie.py)

This file gives a shallow embedding of `src/trie.py` and settles the frozen
claims about it.  Python strings are modelled as `List Char` (sequences of
Unicode code points), Python dicts used as trie nodes become an inductive
`Node` type carrying an association list of children (dict insertion order is
preserved: new keys are appended at the end, existing keys are updated in
place), and the `END` marker key becomes the `val : Option α` field — the
`END` key is a three-character string, so it can never collide with the
single-character edge keys.  Generators become the list of their yields, in
yield order.  Exceptions (`KeyError`) become `Except`.  The library functions
`unicodedata.normalize("NFKC"/"NFKD", ·)` and `str.islower/isupper/
upper/lower` are external to the repository; they are modelled by the
fragment of the Unicode tables covering the characters that appear in this
development (ASCII plus e-acute), each marked in its doc string.
-/

namespace Pytrie

/-- Python's `str.isascii` on a single code point: the code point is below 128. -/
def isascii (c : Char) : Bool := c.toNat ≤ 127

/-- The combining acute accent U+0301. -/
def combiningAcute : Char := '́'

/-- Fragment of the Unicode canonical composition table used by
`unicodedata.normalize("NFKC", ·)`, restricted to the characters appearing in
this development: `e` followed by U+0301 composes to `é`. -/
def composePair : Char → Char → Option Char
  | 'e', c => if c = combiningAcute then some 'é' else none
  | _, _ => none

/-- One left-to-right composition pass over a string, modelling
`unicodedata.normalize("NFKC", w)` on the inputs used here. -/
def nfkc : List Char → List Char
  | [] => []
  | [c] => [c]
  | a :: b :: rest =>
    match composePair a b with
    | some c => c :: nfkc rest
    | none => a :: nfkc (b :: rest)

/-- `normalize` from src/trie.py lines 3-6: ASCII strings are returned
unchanged, otherwise the NFKC normalization is applied. -/
def normalize (w : List Char) : List Char :=
  if w.all isascii then w else nfkc w

/-- `denormalize` from src/trie.py lines 8-9, applied (as in `_insert`) to a
single character: the fragment of `unicodedata.normalize("NFKD", ·)` covering
the characters of this development (`é`/`É` decompose to the base letter
followed by U+0301; everything else is its own decomposition). -/
def denormalize : Char → List Char
  | 'é' => ['e', combiningAcute]
  | 'É' => ['E', combiningAcute]
  | c => [c]

/-- Fragment of Python's `str.islower` for the single characters used here. -/
def isLowerCp (c : Char) : Bool := ('a' ≤ c && c ≤ 'z') || c = 'é'

/-- Fragment of Python's `str.isupper` for the single characters used here. -/
def isUpperCp (c : Char) : Bool := ('A' ≤ c && c ≤ 'Z') || c = 'É'

/-- Fragment of Python's `str.upper` for the single characters used here. -/
def upperCp (c : Char) : Char :=
  if 'a' ≤ c && c ≤ 'z' then Char.ofNat (c.toNat - 32)
  else if c = 'é' then 'É' else c

/-- Fragment of Python's `str.lower` for the single characters used here. -/
def lowerCp (c : Char) : Char :=
  if 'A' ≤ c && c ≤ 'Z' then Char.ofNat (c.toNat + 32)
  else if c = 'É' then 'é' else c

/-- `swapcase` from src/trie.py lines 12-17 (applied, as at all its call
sites, to a single character): lowercase turns uppercase, uppercase turns
lowercase, anything else passes through. -/
def swapcase (c : Char) : Char :=
  if isLowerCp c then upperCp c
  else if isUpperCp c then lowerCp c
  else c

/-- A trie node: the Python nested dict `{char: child, ..., "END": value}`.
`val` is the value under the `"END"` key (absent = no terminal marker);
`children` is the remaining dict in insertion order. -/
inductive Node (α : Type) where
  | mk (val : Option α) (children : List (Char × Node α))

mutual

/-- Height of a trie node (1 for a leaf), used as a recursion-depth bound for
the traversals below. -/
def Node.height : Node α → Nat
  | .mk _ cs => 1 + heightL cs

/-- Maximum height of the nodes in a child list. -/
def heightL : List (Char × Node α) → Nat
  | [] => 0
  | p :: rest => max p.2.height (heightL rest)

end

/-- The value stored under the `END` key, if any. -/
def Node.val : Node α → Option α
  | .mk v _ => v

/-- The single-character child edges, in dict insertion order. -/
def Node.children : Node α → List (Char × Node α)
  | .mk _ cs => cs

/-- Dict lookup `curr[letter]` / `letter in curr` on the child edges. -/
def lookupChild (c : Char) : List (Char × Node α) → Option (Node α)
  | [] => none
  | (c', n) :: rest => if c' = c then some n else lookupChild c rest

/-- Dict assignment `curr[letter] = node` when the key is already present:
the entry keeps its position. -/
def updateChild (c : Char) (n : Node α) : List (Char × Node α) → List (Char × Node α)
  | [] => []
  | (c', n') :: rest => if c' = c then (c', n) :: rest else (c', n') :: updateChild c n rest

/-- Insertion sort step for `insSort`. -/
def insertLe (le : β → β → Bool) (x : β) : List β → List β
  | [] => [x]
  | y :: rest => if le x y then x :: y :: rest else y :: insertLe le x rest

/-- Insertion sort, modelling Python's `sorted`/`list.sort` for the total
orders used in this file. -/
def insSort (le : β → β → Bool) : List β → List β
  | [] => []
  | x :: rest => insertLe le x (insSort le rest)

/-- `sorted(curr)` over the child edges of a node: the keys (single
characters) are sorted by code point; the skipped `"END"` key is the separate
`val` field. -/
def sortChildren (cs : List (Char × Node α)) : List (Char × Node α) :=
  insSort (fun p q => decide (p.1 ≤ q.1)) cs

/-- `Trie._entry` (src/trie.py lines 46-65): walk the path of `word`; if any
character is missing return a fresh empty dict. -/
def entryNode : List Char → Node α → Node α
  | [], n => n
  | c :: rest, n =>
    match lookupChild c n.children with
    | some child => entryNode rest child
    | none => Node.mk none []

/-- The tree part of `Trie._insert` (src/trie.py lines 67-95): walk/extend
the tree one character at a time (new edges are appended at the end of the
dict), then set the `END` value at the final node.  The boolean records
whether `END` was already present at that node (the `if self.END not in
curr` test that guards the size increment). -/
def insertGo (v : α) : List Char → Node α → Node α × Bool
  | [], .mk v0 cs => (.mk (some v) cs, v0.isSome)
  | c :: rest, .mk v0 cs =>
    match lookupChild c cs with
    | some child =>
      let r := insertGo v rest child
      (.mk v0 (updateChild c r.1 cs), r.2)
    | none =>
      let r := insertGo v rest (.mk none [])
      (.mk v0 (cs ++ [(c, r.1)]), r.2)

/-- The class-level `Trie.ACCENTED` dictionary: base character to the set of
accented variants seen during insertion.  Python sets are unordered; they are
modelled as duplicate-free lists in first-insertion order (only membership
and enumeration are ever observed). -/
abbrev AccMap := List (Char × List Char)

/-- `self.ACCENTED.get(c)` lookup. -/
def accLookup (c : Char) : AccMap → Option (List Char)
  | [] => none
  | (b, vs) :: rest => if b = c then some vs else accLookup c rest

/-- `self.ACCENTED[base].add(letter)` (creating the entry if absent, as in
src/trie.py lines 84-86). -/
def accAdd (b v : Char) : AccMap → AccMap
  | [] => [(b, [v])]
  | (b', vs) :: rest =>
    if b' = b then (b', if v ∈ vs then vs else vs ++ [v]) :: rest
    else (b', vs) :: accAdd b v rest

/-- The accent-registration step of `Trie._insert` (src/trie.py lines 80-86)
for one character of the normalized word. -/
def registerLetter (m : AccMap) (c : Char) : AccMap :=
  if isascii c then m
  else
    match denormalize c with
    | b :: _ :: _ => accAdd b c m
    | _ => m

/-- The trie store: `self.words` (root node) and `self.size` (Python int). -/
structure Trie (α : Type) where
  words : Node α
  size : Int

/-- `Trie.__init__`: empty root, size 0. -/
def emptyTrie : Trie α := ⟨.mk none [], 0⟩

/-- `Trie._insert` (src/trie.py lines 67-95).  The per-letter accent
registration and the tree walk run over the same normalized word and do not
interact, so they are modelled as two passes; `ACCENTED` is class-level
state, threaded separately from the instance. -/
def Trie.insertW (t : Trie α) (acc : AccMap) (w : List Char) (v : α) : Trie α × AccMap :=
  let nw := normalize w
  let acc' := nw.foldl registerLetter acc
  let r := insertGo v nw t.words
  (⟨r.1, if r.2 then t.size else t.size + 1⟩, acc')

/-- `Trie.__contains__` (src/trie.py lines 134-149): the entry node must
carry the `END` marker. -/
def Trie.containsW (t : Trie α) (w : List Char) : Bool :=
  (entryNode w t.words).val.isSome

/-- `Trie.__getitem__` (src/trie.py lines 151-168): `none` models the
`KeyError` raised when the `END` marker is absent. -/
def Trie.getItem (t : Trie α) (w : List Char) : Option α :=
  (entryNode w t.words).val

/-- `Trie.get` (src/trie.py lines 185-201): value or caller default. -/
def Trie.getD (t : Trie α) (w : List Char) (default : α) : α :=
  ((entryNode w t.words).val).getD default

/-- Clearing the terminal marker: the effect of `del curr[self.END]` where
`curr` is the node reached by `_entry(word)` (a missing path leaves the tree
unchanged — `_entry` then returned a fresh dict not referenced by the tree). -/
def clearEnd : List Char → Node α → Node α
  | [], .mk _ cs => .mk none cs
  | c :: rest, .mk v0 cs =>
    match lookupChild c cs with
    | some child => .mk v0 (updateChild c (clearEnd rest child) cs)
    | none => .mk v0 cs

/-- `Trie.__isub__` (src/trie.py lines 112-131): if the entry node carries
`END`, decrement the size and delete the marker; otherwise do nothing — no
error is signalled. -/
def Trie.isub (t : Trie α) (w : List Char) : Trie α :=
  if (entryNode w t.words).val.isSome then ⟨clearEnd w t.words, t.size - 1⟩ else t

/-- `Trie.__delitem__` (src/trie.py lines 204-223): `del curr[self.END]`
raises `KeyError` when the marker is absent (before the size decrement);
otherwise the marker is removed and the size decremented. -/
def Trie.delitem (t : Trie α) (w : List Char) : Except Unit (Trie α) :=
  if (entryNode w t.words).val.isSome then .ok ⟨clearEnd w t.words, t.size - 1⟩
  else .error ()

/-- `Trie._keys` (src/trie.py lines 298-316): yield the accumulated prefix
when the node is terminal, then recurse into the children sorted by code
point.  `fuel` bounds the recursion depth; the wrappers pass the height of the
node, so the truncation case is never hit. -/
def keysGo (fuel : Nat) (pre : List Char) (n : Node α) : List (List Char) :=
  match fuel with
  | 0 => []
  | fuel + 1 =>
    (match n.val with | some _ => [pre] | none => []) ++
    (sortChildren n.children).flatMap (fun p => keysGo fuel (pre ++ [p.1]) p.2)

/-- `Trie.__iter__` (src/trie.py lines 318-329): `_keys("", self.words)`. -/
def Trie.iterW (t : Trie α) : List (List Char) :=
  keysGo t.words.height [] t.words

/-- `Trie.prefix` (src/trie.py lines 331-347): `_keys(word, self._entry(word))`. -/
def Trie.prefixW (t : Trie α) (w : List Char) : List (List Char) :=
  keysGo (entryNode w t.words).height w (entryNode w t.words)

/-- `Trie._search` (src/trie.py lines 367-386): wildcard pattern match, one
pattern character per tree depth.  `?` branches into every (sorted) child;
any other character branches into the exact child, the case-swapped child,
and every recorded accented variant. -/
def searchGo (acc : AccMap) (pre : List Char) : List Char → Node α → List (List Char)
  | [], n => match n.val with | some _ => [pre] | none => []
  | k :: ks, n =>
    if k = '?' then
      (sortChildren n.children).flatMap (fun p => searchGo acc (pre ++ [p.1]) ks p.2)
    else
      (match lookupChild k n.children with
       | some child => searchGo acc (pre ++ [k]) ks child
       | none => []) ++
      (match lookupChild (swapcase k) n.children with
       | some child => searchGo acc (pre ++ [swapcase k]) ks child
       | none => []) ++
      (match accLookup k acc with
       | some vs => vs.flatMap (fun a =>
           match lookupChild a n.children with
           | some child => searchGo acc (pre ++ [a]) ks child
           | none => [])
       | none => [])

/-- `Trie.search` (src/trie.py lines 388-404). -/
def Trie.searchW (t : Trie α) (acc : AccMap) (key : List Char) : List (List Char) :=
  searchGo acc [] key t.words

/-- `Trie._spellcheck` (src/trie.py lines 406-434).  States with cost above
3 are abandoned; a terminal node with the query exhausted yields
`(cost, word)`.  Otherwise: transpose the next two query characters when the
tree has the swapped pair, delete the next query character, and for every
sorted child insert its character, or substitute it for the expected one at
cost 0 (same), 1 (case swap or recorded accent variant) or 2 (anything
else).  `fuel` bounds the recursion depth; every recursive call decreases
`key.length + (4 - min diff 4)`, so the wrapper's `key.length + 4` is never
exhausted. -/
def spellGo (acc : AccMap) : Nat → List Char → List Char → Nat → Node α → List (Nat × List Char)
  | 0, _, _, _, _ => []
  | fuel + 1, pre, key, diff, n =>
    if 3 < diff then []
    else
      match key with
      | [] => match n.val with | some _ => [(diff, pre)] | none => []
      | expect :: keyRest =>
        (match keyRest with
         | nextCh :: keyRest2 =>
           (match lookupChild nextCh n.children with
            | some m1 =>
              match lookupChild expect m1.children with
              | some m2 => spellGo acc fuel (pre ++ [nextCh, expect]) keyRest2 (diff + 1) m2
              | none => []
            | none => [])
         | [] => []) ++
        spellGo acc fuel pre keyRest (diff + 1) n ++
        (sortChildren n.children).flatMap (fun p =>
          spellGo acc fuel (pre ++ [p.1]) key (diff + 1) p.2 ++
          (if p.1 = expect then
            spellGo acc fuel (pre ++ [p.1]) keyRest diff p.2
          else if swapcase expect = p.1 || ((accLookup expect acc).getD []).contains p.1 then
            spellGo acc fuel (pre ++ [p.1]) keyRest (diff + 1) p.2
          else
            spellGo acc fuel (pre ++ [p.1]) keyRest (diff + 2) p.2))

/-- One step of building the `maybe` dict in `distance`/`spellcheck`:
`maybe[word] = min(maybe.get(word, 100), diff)` (new keys append at the end,
matching dict iteration order). -/
def updateMin : List (List Char × Nat) → Nat → List Char → List (List Char × Nat)
  | [], d, w => [(w, Nat.min 100 d)]
  | (w', d') :: rest, d, w =>
    if w' = w then (w', Nat.min d' d) :: rest
    else (w', d') :: updateMin rest d w

/-- Python `<` on strings (code-point lexicographic), as a boolean. -/
def lexLt : List Char → List Char → Bool
  | [], [] => false
  | [], _ :: _ => true
  | _ :: _, [] => false
  | a :: as, b :: bs => decide (a < b) || (decide (a = b) && lexLt as bs)

/-- Python `<=` on `(int, str)` pairs: ascending distance, ties broken
code-point lexicographically by word — the order used by `possible.sort()`. -/
def pairLe (p q : Nat × List Char) : Bool :=
  decide (p.1 < q.1) || (decide (p.1 = q.1) && (decide (p.2 = q.2) || lexLt p.2 q.2))

/-- `Trie.spellcheck` (src/trie.py lines 461-483): fold the yields of
`_spellcheck` into a minimum-cost-per-word dict, swap each entry to
`(distance, word)` and sort. -/
def Trie.spellcheckW (t : Trie α) (acc : AccMap) (w : List Char) : List (Nat × List Char) :=
  let yields := spellGo acc (w.length + 4) [] w 0 t.words
  let maybe := yields.foldl (fun m p => updateMin m p.1 p.2) []
  insSort pairLe (maybe.map fun p => (p.2, p.1))

/-- `Trie.distance` (src/trie.py lines 436-458): its body is identical to
`Trie.spellcheck`. -/
def Trie.distanceW (t : Trie α) (acc : AccMap) (w : List Char) : List (Nat × List Char) :=
  let yields := spellGo acc (w.length + 4) [] w 0 t.words
  let maybe := yields.foldl (fun m p => updateMin m p.1 p.2) []
  insSort pairLe (maybe.map fun p => (p.2, p.1))


/-! ## Generic lemmas about the insertion sort model of `sorted` -/

theorem mem_insertLe {le : β → β → Bool} {x a : β} {l : List β} :
    a ∈ insertLe le x l ↔ a = x ∨ a ∈ l := by
  induction l with
  | nil => simp [insertLe]
  | cons y rest ih =>
    simp only [insertLe]
    split
    · simp [List.mem_cons]
    · simp only [List.mem_cons, ih]
      tauto

theorem insertLe_perm (le : β → β → Bool) (x : β) (l : List β) :
    List.Perm (insertLe le x l) (x :: l) := by
  induction l with
  | nil => exact List.Perm.refl _
  | cons y rest ih =>
    simp only [insertLe]
    split
    · exact List.Perm.refl _
    · exact (List.Perm.cons y ih).trans (List.Perm.swap x y rest)

theorem insSort_perm (le : β → β → Bool) (l : List β) :
    List.Perm (insSort le l) l := by
  induction l with
  | nil => exact List.Perm.refl _
  | cons x rest ih =>
    exact (insertLe_perm le x _).trans (List.Perm.cons x ih)

theorem mem_insSort {le : β → β → Bool} {a : β} {l : List β} :
    a ∈ insSort le l ↔ a ∈ l :=
  (insSort_perm le l).mem_iff

theorem insertLe_pairwise {le : β → β → Bool}
    (htot : ∀ a b, le a b = true ∨ le b a = true)
    (htrans : ∀ a b c, le a b = true → le b c = true → le a c = true)
    {x : β} {l : List β} (hl : l.Pairwise (fun a b => le a b = true)) :
    (insertLe le x l).Pairwise (fun a b => le a b = true) := by
  induction l with
  | nil => simp [insertLe]
  | cons y rest ih =>
    rcases List.pairwise_cons.mp hl with ⟨hy, hrest⟩
    simp only [insertLe]
    split
    next h =>
      refine List.pairwise_cons.mpr ⟨?_, hl⟩
      intro b hb
      rcases List.mem_cons.mp hb with rfl | hb
      · exact h
      · exact htrans x y b h (hy b hb)
    next h =>
      refine List.pairwise_cons.mpr ⟨?_, ih hrest⟩
      intro b hb
      rcases mem_insertLe.mp hb with rfl | hb
      · rcases htot b y with h' | h'
        · exact absurd h' h
        · exact h'
      · exact hy b hb

theorem insSort_pairwise {le : β → β → Bool}
    (htot : ∀ a b, le a b = true ∨ le b a = true)
    (htrans : ∀ a b c, le a b = true → le b c = true → le a c = true)
    (l : List β) :
    (insSort le l).Pairwise (fun a b => le a b = true) := by
  induction l with
  | nil => simp [insSort]
  | cons x rest ih => exact insertLe_pairwise htot htrans ih

/-! ## Lemmas about dict lookup and update -/

theorem lookupChild_updateChild {c : Char} {x n : Node α} {cs : List (Char × Node α)}
    (h : lookupChild c cs = some x) :
    lookupChild c (updateChild c n cs) = some n := by
  induction cs with
  | nil => simp [lookupChild] at h
  | cons p rest ih =>
    obtain ⟨c', n'⟩ := p
    by_cases hc : c' = c
    · simp [lookupChild, updateChild, hc]
    · simp only [lookupChild, updateChild, if_neg hc] at h ⊢
      exact ih h

theorem lookupChild_append_none {c : Char} {l1 l2 : List (Char × Node α)}
    (h : lookupChild c l1 = none) :
    lookupChild c (l1 ++ l2) = lookupChild c l2 := by
  induction l1 with
  | nil => rfl
  | cons p rest ih =>
    obtain ⟨c', n'⟩ := p
    by_cases hc : c' = c
    · simp [lookupChild, hc] at h
    · simp only [lookupChild, if_neg hc, List.cons_append] at h ⊢
      exact ih h

/-! ## Insertion establishes the terminal marker at the inserted path -/

theorem entryNode_insertGo (v : α) : ∀ (w : List Char) (n : Node α),
    (entryNode w (insertGo v w n).1).val = some v := by
  intro w
  induction w with
  | nil => intro n; cases n; rfl
  | cons c rest ih =>
    intro n
    cases n with
    | mk v0 cs =>
      cases h : lookupChild c cs with
      | some child =>
        simp only [insertGo, h, entryNode, Node.children,
          lookupChild_updateChild h]
        exact ih child
      | none =>
        simp only [insertGo, h, entryNode, Node.children,
          lookupChild_append_none h, lookupChild, if_pos rfl]
        exact ih _

/-! ## Claim C2 -/

/-- C2 counterexample: `_insert` normalizes the word (NFKC) but `_entry` —
and hence `__contains__` — walks the raw word.  Inserting the decomposed
spelling of `é` (`e` followed by U+0301) stores the word under the composed
path, so an immediate `contains` query with the same word returns false. -/
theorem C2_counterexample :
    (((emptyTrie : Trie Bool).insertW [] ['e', combiningAcute] true).1.containsW
      ['e', combiningAcute]) = false := by decide

/-- C2 (amended): for every word `w` that is fixed by `normalize` (in
particular every ASCII word) and every value `v`, immediately after
`insert(w, v)` on any trie, `contains(w)` is true and `get(w)` returns `v`. -/
theorem C2_insert_contains_get {α : Type} (t : Trie α) (acc : AccMap)
    (w : List Char) (v : α) (h : normalize w = w) :
    ((t.insertW acc w v).1.containsW w = true) ∧
      ((t.insertW acc w v).1.getItem w = some v) := by
  unfold Trie.insertW Trie.containsW Trie.getItem
  simp only [h, entryNode_insertGo, Option.isSome_some, and_self]

/-- Witness for C2 at a concrete input. -/
theorem C2_insert_contains_get_witness :
    normalize ['h', 'i'] = ['h', 'i'] ∧
      ((((emptyTrie : Trie Nat).insertW [] ['h', 'i'] 7).1.containsW ['h', 'i'] = true) ∧
        (((emptyTrie : Trie Nat).insertW [] ['h', 'i'] 7).1.getItem ['h', 'i'] = some 7)) :=
  ⟨by decide, C2_insert_contains_get emptyTrie [] ['h', 'i'] 7 (by decide)⟩

/-! ## Claim C3 -/

/-- C3 counterexample: removing the absent word `"a"` from an empty trie via
the `-=` operator silently succeeds — it returns the trie unchanged and
raises nothing — contradicting the claim that both removal entry points
signal a "no such word" error. -/
theorem C3_counterexample :
    (emptyTrie : Trie Bool).isub ['a'] = emptyTrie := by rfl

/-- C3 (amended): for every trie and every word whose terminal marker is
absent, item deletion (`del trie[w]`) signals the `KeyError` and `len()` is
unchanged by the failed removal, while the `-=` operator silently returns
the trie unchanged (same tree and same `len()`), signalling nothing. -/
theorem C3_removal_missing {α : Type} (t : Trie α) (w : List Char)
    (h : (entryNode w t.words).val = none) :
    t.delitem w = Except.error () ∧ t.isub w = t := by
  unfold Trie.delitem Trie.isub
  simp [h]

/-- Witness for C3 at a concrete input: a fresh trie holds no marker for
`"a"`, so deletion errors out and `-=` is the identity. -/
theorem C3_removal_missing_witness :
    (entryNode ['a'] (emptyTrie : Trie Bool).words).val = none ∧
      ((emptyTrie : Trie Bool).delitem ['a'] = Except.error () ∧
        (emptyTrie : Trie Bool).isub ['a'] = emptyTrie) :=
  ⟨by decide, C3_removal_missing emptyTrie ['a'] (by decide)⟩

/-! ## Claim C1 -/

/-- The C1 scenario store: insert hello, help, hell, shell, shall into an
empty trie (all ASCII, so the accent index stays empty). -/
def scenarioC1 : Trie Bool × AccMap :=
  let s1 := (emptyTrie : Trie Bool).insertW [] "hello".toList true
  let s2 := s1.1.insertW s1.2 "help".toList true
  let s3 := s2.1.insertW s2.2 "hell".toList true
  let s4 := s3.1.insertW s3.2 "shell".toList true
  s4.1.insertW s4.2 "shall".toList true

/-- C1 counterexample: `spellcheck("hello")` on the scenario store does NOT
return the claimed pairs (hello,0), (hell,1), (help,2), (shell,2),
(shall,3): under the implemented cost table a plain substitution costs 2, so
`help` is at distance 3 and `shall` (total cost 4) is pruned entirely. -/
theorem C1_counterexample :
    scenarioC1.1.spellcheckW scenarioC1.2 "hello".toList ≠
      [(0, "hello".toList), (1, "hell".toList), (2, "help".toList),
        (2, "shell".toList), (3, "shall".toList)] := by decide

/-- C1 (amended): after inserting exactly hello, help, hell, shell, shall
into an empty trie, `spellcheck("hello")` returns exactly the pairs
(hello,0), (hell,1), (shell,2), (help,3) — ordered ascending by distance
with lexicographic tie-break; `shall` is beyond the cost ceiling 3 and is
not returned.  (The code yields `(distance, word)` tuples.) -/
theorem C1_spellcheck_scenario :
    scenarioC1.1.spellcheckW scenarioC1.2 "hello".toList =
      [(0, "hello".toList), (1, "hell".toList), (2, "shell".toList),
        (3, "help".toList)] := by decide

/-! ## Claim C5 -/

/-- Two Trie instances as created by `Trie()` twice.  Per src/trie.py line
22, `ACCENTED` is a class attribute — one dictionary object shared by every
instance and mutated in place by `_insert` (lines 84-86) — so both stores
observe the same accent index. -/
structure TwoStores (α : Type) where
  storeA : Trie α
  storeB : Trie α
  accented : AccMap

/-- Two freshly created stores in a fresh process: both empty, class-level
accent index empty. -/
def TwoStores.empty : TwoStores α := ⟨emptyTrie, emptyTrie, []⟩

/-- `A._insert(word, value)`: updates A's tree and the class-level
`ACCENTED` dictionary. -/
def TwoStores.insertA (s : TwoStores α) (w : List Char) (v : α) : TwoStores α :=
  let r := s.storeA.insertW s.accented w v
  ⟨r.1, s.storeB, r.2⟩

/-- The accent index as observed from instance B — the class attribute,
i.e. the shared dictionary. -/
def TwoStores.accentIndexB (s : TwoStores α) : AccMap := s.accented

/-- C5 is violated by the code: inserting the accented word `"é"` into store
A changes the accent index observed by store B from `{}` to `{'e': {'é'}}`,
because `ACCENTED` is one class-level dictionary shared by all instances —
each store does not own its own accent index. -/
theorem C5_class_level_accent_leak :
    (TwoStores.empty : TwoStores Bool).accentIndexB = [] ∧
      (((TwoStores.empty : TwoStores Bool).insertA ['é'] true).accentIndexB
        = [('e', ['é'])]) := by decide

/-! ## Claim C4: the size counter tracks the terminal markers -/

mutual

/-- Number of nodes carrying the terminal marker in a subtree (the node
itself included). -/
def countT : Node α → Nat
  | .mk v cs => (if v.isSome then 1 else 0) + countL cs

/-- Terminal-marker count summed over a child list. -/
def countL : List (Char × Node α) → Nat
  | [] => 0
  | p :: rest => countT p.2 + countL rest

end

theorem countL_append (l1 l2 : List (Char × Node α)) :
    countL (l1 ++ l2) = countL l1 + countL l2 := by
  induction l1 with
  | nil => simp [countL]
  | cons p rest ih =>
    rw [List.cons_append]
    simp only [countL]
    rw [ih]
    omega

theorem countL_updateChild {c : Char} {x : Node α} (n' : Node α)
    {cs : List (Char × Node α)} (h : lookupChild c cs = some x) :
    countL (updateChild c n' cs) + countT x = countL cs + countT n' := by
  induction cs with
  | nil => simp [lookupChild] at h
  | cons p rest ih =>
    obtain ⟨c', y⟩ := p
    by_cases hc : c' = c
    · simp only [lookupChild, if_pos hc, Option.some.injEq] at h
      subst h
      simp only [updateChild, if_pos hc, countL]
      omega
    · simp only [lookupChild, if_neg hc] at h
      simp only [updateChild, if_neg hc, countL]
      have := ih h
      omega

theorem countT_insertGo (v : α) : ∀ (w : List Char) (n : Node α),
    countT (insertGo v w n).1 + (if (insertGo v w n).2 then 1 else 0)
      = countT n + 1 := by
  intro w
  induction w with
  | nil =>
    intro n
    cases n with
    | mk v0 cs =>
      simp only [insertGo, countT]
      cases v0 <;> simp <;> omega
  | cons c rest ih =>
    intro n
    cases n with
    | mk v0 cs =>
      cases h : lookupChild c cs with
      | some child =>
        have h1 := countL_updateChild (insertGo v rest child).1 h
        have h2 := ih child
        simp only [insertGo, h, countT]
        omega
      | none =>
        have h2 := ih (Node.mk none [])
        simp only [countT, countL, Option.isSome_none, Bool.false_eq_true,
          if_false] at h2
        simp only [insertGo, h, countT, countL_append, countL]
        omega

theorem countT_clearEnd : ∀ (w : List Char) (n : Node α),
    countT (clearEnd w n) + (if (entryNode w n).val.isSome then 1 else 0)
      = countT n := by
  intro w
  induction w with
  | nil =>
    intro n
    cases n with
    | mk v0 cs =>
      simp only [clearEnd, entryNode, Node.val, countT]
      cases v0 <;> simp <;> omega
  | cons c rest ih =>
    intro n
    cases n with
    | mk v0 cs =>
      cases h : lookupChild c cs with
      | some child =>
        have h1 := countL_updateChild (clearEnd rest child) h
        have h2 := ih child
        simp only [clearEnd, entryNode, Node.children, h, countT]
        omega
      | none =>
        simp only [clearEnd, entryNode, Node.children, h, countT, Node.val]
        simp

/-- States of one store, together with the class-level accent map, reachable
from a fresh store by any sequence of insertions and removals.  A failing
`del` raises before mutating anything and a failing `-=` returns the store
unchanged, so failing removals leave the state as it was and add nothing
beyond reflexivity. -/
inductive Reachable {α : Type} : Trie α × AccMap → Prop where
  | empty : Reachable (emptyTrie, [])
  | insert (s : Trie α × AccMap) (w : List Char) (v : α) :
      Reachable s → Reachable (s.1.insertW s.2 w v)
  | isub (s : Trie α × AccMap) (w : List Char) :
      Reachable s → Reachable (s.1.isub w, s.2)
  | delitem (s : Trie α × AccMap) (w : List Char) (t' : Trie α) :
      Reachable s → s.1.delitem w = Except.ok t' → Reachable (t', s.2)

/-- C4: in every store state reachable from the empty trie by any sequence
of insert and removal operations (including failing ones), `len()` equals
exactly the number of nodes reachable from the root whose terminal marker is
set.  The counter moves only together with a marker transition — `insertGo`
reports whether the marker was already present and `clearEnd` removes
exactly one marker — and a failed removal leaves the state unchanged. -/
theorem C4_size_invariant {α : Type} (s : Trie α × AccMap) (h : Reachable s) :
    s.1.size = (countT s.1.words : Int) := by
  induction h with
  | empty => simp [emptyTrie, countT, countL]
  | insert s w v hr ih =>
    have hc := countT_insertGo v (normalize w) s.1.words
    unfold Trie.insertW
    cases hb : (insertGo v (normalize w) s.1.words).2 with
    | true => simp only [hb, if_true] at hc ⊢; omega
    | false =>
      simp only [hb, Bool.false_eq_true, if_false] at hc ⊢
      omega
  | isub s w hr ih =>
    unfold Trie.isub
    cases hb : (entryNode w s.1.words).val.isSome with
    | true =>
      have hc := countT_clearEnd w s.1.words
      simp only [hb, if_true] at hc ⊢
      omega
    | false => simp only [hb, Bool.false_eq_true, if_false]; exact ih
  | delitem s w t' hr hok ih =>
    unfold Trie.delitem at hok
    cases hb : (entryNode w s.1.words).val.isSome with
    | true =>
      have hc := countT_clearEnd w s.1.words
      simp only [hb, if_true] at hc hok
      cases hok
      simp only [if_true] at hc ⊢
      omega
    | false => simp [hb] at hok

/-- A concrete reachable state used by the C4 witness: one insertion, one
successful removal and one failed removal. -/
def c4state : Trie Bool × AccMap :=
  ((((emptyTrie : Trie Bool).insertW [] "ab".toList true).1.insertW
    (((emptyTrie : Trie Bool).insertW [] "ab".toList true).2) "a".toList true).1.isub
      "zz".toList,
    (((emptyTrie : Trie Bool).insertW [] "ab".toList true).1.insertW
      (((emptyTrie : Trie Bool).insertW [] "ab".toList true).2) "a".toList true).2)

/-- Witness for C4 at the concrete reachable state. -/
theorem C4_size_invariant_witness :
    Reachable c4state ∧ c4state.1.size = (countT c4state.1.words : Int) :=
  ⟨Reachable.isub _ _ (Reachable.insert _ _ _ (Reachable.insert _ _ _ Reachable.empty)),
    C4_size_invariant c4state
      (Reachable.isub _ _ (Reachable.insert _ _ _ (Reachable.insert _ _ _ Reachable.empty)))⟩

/-! ## Code-point lexicographic order -/

theorem lexLt_append (pre s t : List Char) :
    lexLt (pre ++ s) (pre ++ t) = lexLt s t := by
  induction pre with
  | nil => rfl
  | cons a rest ih => simp [lexLt, ih]

theorem lexLt_self_append (pre : List Char) (c : Char) (s : List Char) :
    lexLt pre (pre ++ c :: s) = true := by
  have h := lexLt_append pre [] (c :: s)
  simpa [lexLt] using h

theorem lexLt_cons_of_lt {c c' : Char} (h : c < c') (s t : List Char) :
    lexLt (c :: s) (c' :: t) = true := by
  simp [lexLt, h]

theorem lexLt_trans : ∀ {u v w : List Char},
    lexLt u v = true → lexLt v w = true → lexLt u w = true := by
  intro u
  induction u with
  | nil =>
    intro v w huv hvw
    cases v with
    | nil => simp [lexLt] at huv
    | cons b bs =>
      cases w with
      | nil => simp [lexLt] at hvw
      | cons c cs => simp [lexLt]
  | cons a as ih =>
    intro v w huv hvw
    cases v with
    | nil => simp [lexLt] at huv
    | cons b bs =>
      cases w with
      | nil => simp [lexLt] at hvw
      | cons c cs =>
        simp only [lexLt, Bool.or_eq_true, Bool.and_eq_true, decide_eq_true_eq] at huv hvw ⊢
        rcases huv with hab | ⟨hab, habs⟩
        · rcases hvw with hbc | ⟨hbc, hbcs⟩
          · exact Or.inl (lt_trans hab hbc)
          · exact Or.inl (hbc ▸ hab)
        · rcases hvw with hbc | ⟨hbc, hbcs⟩
          · exact Or.inl (hab ▸ hbc)
          · exact Or.inr ⟨hab.trans hbc, ih habs hbcs⟩

theorem lexLt_total : ∀ (u v : List Char),
    u = v ∨ lexLt u v = true ∨ lexLt v u = true := by
  intro u
  induction u with
  | nil =>
    intro v
    cases v with
    | nil => exact Or.inl rfl
    | cons b bs => exact Or.inr (Or.inl (by simp [lexLt]))
  | cons a as ih =>
    intro v
    cases v with
    | nil => exact Or.inr (Or.inr (by simp [lexLt]))
    | cons b bs =>
      rcases lt_trichotomy a b with hab | hab | hab
      · exact Or.inr (Or.inl (lexLt_cons_of_lt hab as bs))
      · subst hab
        rcases ih bs with h | h | h
        · exact Or.inl (by rw [h])
        · exact Or.inr (Or.inl (by simp [lexLt, h]))
        · exact Or.inr (Or.inr (by simp [lexLt, h]))
      · exact Or.inr (Or.inr (lexLt_cons_of_lt hab bs as))

/-! ## Well-formed trees: distinct edge keys at every level

True of every Python dict; the traversal claims are proved under this
hypothesis. -/

mutual

/-- Every level of the subtree has pairwise-distinct edge keys. -/
def wfB : Node α → Bool
  | .mk _ cs => decide (cs.map Prod.fst).Nodup && wfL cs

/-- `wfB` for every node of a child list. -/
def wfL : List (Char × Node α) → Bool
  | [] => true
  | p :: rest => wfB p.2 && wfL rest

end

theorem wfL_mem {cs : List (Char × Node α)} (h : wfL cs = true) :
    ∀ p ∈ cs, wfB p.2 = true := by
  induction cs with
  | nil => intro p hp; simp at hp
  | cons q rest ih =>
    simp only [wfL, Bool.and_eq_true] at h
    intro p hp
    rcases List.mem_cons.mp hp with rfl | hp
    · exact h.1
    · exact ih h.2 p hp

theorem wfB_children {v : Option α} {cs : List (Char × Node α)}
    (h : wfB (Node.mk v cs) = true) :
    (cs.map Prod.fst).Nodup ∧ ∀ p ∈ cs, wfB p.2 = true := by
  simp only [wfB, Bool.and_eq_true, decide_eq_true_eq] at h
  exact ⟨h.1, wfL_mem h.2⟩

theorem pairwise_and_of {R S : β → β → Prop} {l : List β}
    (hR : l.Pairwise R) (hS : l.Pairwise S) :
    l.Pairwise (fun a b => R a b ∧ S a b) := by
  induction l with
  | nil => exact List.Pairwise.nil
  | cons x rest ih =>
    rcases List.pairwise_cons.mp hR with ⟨hxR, hRrest⟩
    rcases List.pairwise_cons.mp hS with ⟨hxS, hSrest⟩
    exact List.pairwise_cons.mpr ⟨fun b hb => ⟨hxR b hb, hxS b hb⟩, ih hRrest hSrest⟩

theorem sortChildren_pairwise_lt {cs : List (Char × Node α)}
    (h : (cs.map Prod.fst).Nodup) :
    (sortChildren cs).Pairwise (fun p q => p.1 < q.1) := by
  have hle : (sortChildren cs).Pairwise
      (fun p q => (fun p q : Char × Node α => decide (p.1 ≤ q.1)) p q = true) := by
    apply insSort_pairwise
    · intro a b
      rcases le_total a.1 b.1 with h' | h'
      · exact Or.inl (by simpa using h')
      · exact Or.inr (by simpa using h')
    · intro a b c hab hbc
      simp only [decide_eq_true_eq] at hab hbc ⊢
      exact le_trans hab hbc
  have hne : (sortChildren cs).Pairwise (fun p q => p.1 ≠ q.1) := by
    have h0 : cs.Pairwise (fun p q => p.1 ≠ q.1) := by
      rw [List.Nodup] at h
      exact List.pairwise_map.mp h
    exact ((insSort_perm _ cs).pairwise_iff (fun hab => Ne.symm hab)).mpr h0
  refine (pairwise_and_of hle hne).imp ?_
  intro a b hab
  exact lt_of_le_of_ne (by simpa using hab.1) hab.2

theorem sortChildren_wf {cs : List (Char × Node α)} (h : wfL cs = true) :
    ∀ p ∈ sortChildren cs, wfB p.2 = true := by
  intro p hp
  exact wfL_mem h p ((insSort_perm _ cs).mem_iff.mp hp)

/-! ## Enumeration is strictly lexicographically sorted (claims C8, C10) -/

theorem keysGo_mem_pre : ∀ (fuel : Nat) (pre : List Char) (n : Node α)
    (w : List Char), w ∈ keysGo fuel pre n → ∃ s, w = pre ++ s := by
  intro fuel
  induction fuel with
  | zero => intro pre n w hw; simp [keysGo] at hw
  | succ fuel ih =>
    intro pre n w hw
    simp only [keysGo, List.mem_append] at hw
    rcases hw with hw | hw
    · refine ⟨[], ?_⟩
      cases hv : n.val with
      | some x => simp [hv] at hw; simp [hw]
      | none => simp [hv] at hw
    · rcases List.mem_flatMap.mp hw with ⟨p, _, hp⟩
      rcases ih (pre ++ [p.1]) p.2 w hp with ⟨s, hs⟩
      exact ⟨p.1 :: s, by simpa using hs⟩

theorem keysGo_flat_pairwise (fuel : Nat) (pre : List Char)
    (scs : List (Char × Node α))
    (hord : scs.Pairwise (fun p q => p.1 < q.1))
    (hwf : ∀ p ∈ scs, wfB p.2 = true)
    (hIH : ∀ (pre' : List Char) (n : Node α), wfB n = true →
      (keysGo fuel pre' n).Pairwise (fun u w => lexLt u w = true)) :
    (scs.flatMap (fun p => keysGo fuel (pre ++ [p.1]) p.2)).Pairwise
      (fun u w => lexLt u w = true) := by
  induction scs with
  | nil => simp
  | cons q rest ih =>
    rcases List.pairwise_cons.mp hord with ⟨hq, hrest⟩
    simp only [List.flatMap_cons]
    rw [List.pairwise_append]
    refine ⟨hIH _ _ (hwf q (List.mem_cons_self q rest)), ?_, ?_⟩
    · exact ih hrest (fun p hp => hwf p (List.mem_cons_of_mem q hp))
    · intro u hu w hw
      rcases keysGo_mem_pre fuel _ _ u hu with ⟨s, rfl⟩
      rcases List.mem_flatMap.mp hw with ⟨p, hpmem, hp⟩
      rcases keysGo_mem_pre fuel _ _ w hp with ⟨s', rfl⟩
      have hlt : q.1 < p.1 := hq p hpmem
      have : lexLt ((pre ++ [q.1]) ++ s) ((pre ++ [p.1]) ++ s') = true := by
        have h2 : lexLt (q.1 :: s) (p.1 :: s') = true := lexLt_cons_of_lt hlt s s'
        calc lexLt ((pre ++ [q.1]) ++ s) ((pre ++ [p.1]) ++ s')
            = lexLt (pre ++ (q.1 :: s)) (pre ++ (p.1 :: s')) := by
              simp [List.append_assoc]
          _ = lexLt (q.1 :: s) (p.1 :: s') := lexLt_append pre _ _
          _ = true := h2
      exact this

theorem keysGo_pairwise : ∀ (fuel : Nat) (pre : List Char) (n : Node α),
    wfB n = true → (keysGo fuel pre n).Pairwise (fun u w => lexLt u w = true) := by
  intro fuel
  induction fuel with
  | zero => intro pre n _; simp [keysGo]
  | succ fuel ih =>
    intro pre n hn
    cases n with
    | mk v cs =>
      rcases wfB_children hn with ⟨hnd, hkids⟩
      simp only [keysGo, Node.val, Node.children]
      rw [List.pairwise_append]
      refine ⟨?_, ?_, ?_⟩
      · cases v <;> simp
      · exact keysGo_flat_pairwise fuel pre (sortChildren cs)
          (sortChildren_pairwise_lt hnd)
          (fun p hp => hkids p ((insSort_perm _ cs).mem_iff.mp hp))
          (fun pre' n' h' => ih pre' n' h')
      · intro u hu w hw
        cases v with
        | none => simp at hu
        | some x =>
          simp only [List.mem_singleton] at hu
          subst hu
          rcases List.mem_flatMap.mp hw with ⟨p, _, hp⟩
          rcases keysGo_mem_pre fuel _ _ w hp with ⟨s, rfl⟩
          simpa [List.append_assoc] using
            (lexLt_self_append u p.1 s)

theorem lookupChild_mem {c : Char} {x : Node α} {cs : List (Char × Node α)}
    (h : lookupChild c cs = some x) : (c, x) ∈ cs := by
  induction cs with
  | nil => simp [lookupChild] at h
  | cons p rest ih =>
    obtain ⟨c', n'⟩ := p
    by_cases hc : c' = c
    · simp only [lookupChild, if_pos hc, Option.some.injEq] at h
      subst hc
      subst h
      exact List.mem_cons_self _ _
    · simp only [lookupChild, if_neg hc] at h
      exact List.mem_cons_of_mem _ (ih h)

theorem wfB_entryNode : ∀ (w : List Char) (n : Node α), wfB n = true →
    wfB (entryNode w n) = true := by
  intro w
  induction w with
  | nil => exact fun n hn => hn
  | cons c rest ih =>
    intro n hn
    cases n with
    | mk v cs =>
      cases h : lookupChild c cs with
      | some child =>
        simp only [entryNode, Node.children, h]
        exact ih child ((wfB_children hn).2 (c, child) (lookupChild_mem h))
      | none =>
        simp only [entryNode, Node.children, h]
        rfl

/-- C8: on every well-formed store (pairwise-distinct edge keys at every
level, as holds for every Python dict), full iteration and prefix
enumeration produce words in strictly increasing code-point lexicographic
order: the accumulated prefix (when terminal) precedes, and children are
visited sorted by code point. -/
theorem C8_enumeration_sorted {α : Type} (t : Trie α) (hw : wfB t.words = true) :
    ((Trie.iterW t).Pairwise (fun u w => lexLt u w = true)) ∧
      ∀ p : List Char, (Trie.prefixW t p).Pairwise (fun u w => lexLt u w = true) := by
  constructor
  · exact keysGo_pairwise _ [] t.words hw
  · intro p
    unfold Trie.prefixW
    exact keysGo_pairwise _ p _ (wfB_entryNode p t.words hw)

/-- Witness for C8 at the concrete C1 scenario store. -/
theorem C8_enumeration_sorted_witness :
    wfB scenarioC1.1.words = true ∧
      (((Trie.iterW scenarioC1.1).Pairwise (fun u w => lexLt u w = true)) ∧
        ∀ p : List Char,
          (Trie.prefixW scenarioC1.1 p).Pairwise (fun u w => lexLt u w = true)) :=
  ⟨by decide, C8_enumeration_sorted scenarioC1.1 (by decide)⟩

/-! ## Claim C10: the empty string is a valid key -/

/-- C10: inserting the empty string marks the root node itself: when the
root carries no terminal marker yet, after `insert("", v)` the store answers
`contains("")` with true and `get("")` with `v`, `len()` grows by exactly 1,
a second insertion of the empty string leaves `len()` unchanged, and full
enumeration yields the empty string as its first word. -/
theorem C10_empty_string_key {α : Type} (t : Trie α) (acc : AccMap) (v v' : α)
    (h : t.words.val = none) :
    ((t.insertW acc [] v).1.containsW [] = true) ∧
    ((t.insertW acc [] v).1.getItem [] = some v) ∧
    ((t.insertW acc [] v).1.size = t.size + 1) ∧
    (((t.insertW acc [] v).1.insertW (t.insertW acc [] v).2 [] v').1.size
        = (t.insertW acc [] v).1.size) ∧
    ((t.insertW acc [] v).1.iterW.head? = some []) := by
  obtain ⟨n, sz⟩ := t
  cases n with
  | mk v0 cs =>
    simp only [Node.val] at h
    subst h
    refine ⟨rfl, rfl, ?_, rfl, ?_⟩
    · simp [Trie.insertW, normalize, insertGo]
    · show (keysGo (Node.height (Node.mk (some v) cs)) [] (Node.mk (some v) cs)).head?
        = some []
      have hh : Node.height (Node.mk (some v) cs) = heightL cs + 1 := by
        simp [Node.height, Nat.add_comm]
      rw [hh]
      simp [keysGo, Node.val]

/-- Witness for C10 at a concrete input. -/
theorem C10_empty_string_key_witness :
    (emptyTrie : Trie Nat).words.val = none ∧
      ((((emptyTrie : Trie Nat).insertW [] [] 3).1.containsW [] = true) ∧
        (((emptyTrie : Trie Nat).insertW [] [] 3).1.getItem [] = some 3) ∧
        (((emptyTrie : Trie Nat).insertW [] [] 3).1.size = (emptyTrie : Trie Nat).size + 1) ∧
        ((((emptyTrie : Trie Nat).insertW [] [] 3).1.insertW
            ((emptyTrie : Trie Nat).insertW [] [] 3).2 [] 4).1.size
          = ((emptyTrie : Trie Nat).insertW [] [] 3).1.size) ∧
        (((emptyTrie : Trie Nat).insertW [] [] 3).1.iterW.head? = some [])) :=
  ⟨rfl, C10_empty_string_key emptyTrie [] 3 4 rfl⟩

/-! ## Claim C6: wildcard search and duplicate results -/

/-- Accent-index sanity: the variants recorded under a base are distinct and
differ from the base and its case swap (as holds for every index built by
`_insert`: variants are non-ASCII composed characters). -/
def WFAcc (acc : AccMap) : Prop :=
  ∀ p ∈ acc, p.2.Nodup ∧ ∀ a ∈ p.2, a ≠ p.1 ∧ a ≠ swapcase p.1

theorem accLookup_mem {c : Char} {vs : List Char} {acc : AccMap}
    (h : accLookup c acc = some vs) : (c, vs) ∈ acc := by
  induction acc with
  | nil => simp [accLookup] at h
  | cons p rest ih =>
    obtain ⟨b, vs'⟩ := p
    by_cases hb : b = c
    · simp only [accLookup, if_pos hb, Option.some.injEq] at h
      subst hb
      subst h
      exact List.mem_cons_self _ _
    · simp only [accLookup, if_neg hb] at h
      exact List.mem_cons_of_mem _ (ih h)

theorem searchGo_mem_pre (acc : AccMap) : ∀ (key pre : List Char) (n : Node α)
    (w : List Char), w ∈ searchGo acc pre key n → ∃ s, w = pre ++ s := by
  intro key
  induction key with
  | nil =>
    intro pre n w hw
    cases hv : n.val with
    | some x => simp [searchGo, hv] at hw; exact ⟨[], by simp [hw]⟩
    | none => simp [searchGo, hv] at hw
  | cons k ks ih =>
    intro pre n w hw
    simp only [searchGo] at hw
    split at hw
    · rcases List.mem_flatMap.mp hw with ⟨p, _, hp⟩
      rcases ih (pre ++ [p.1]) p.2 w hp with ⟨s, hs⟩
      exact ⟨p.1 :: s, by simpa using hs⟩
    · rcases List.mem_append.mp hw with hw | hw
      · rcases List.mem_append.mp hw with hw | hw
        · split at hw
          · rcases ih _ _ w hw with ⟨s, hs⟩
            exact ⟨k :: s, by simpa using hs⟩
          · simp at hw
        · split at hw
          · rcases ih _ _ w hw with ⟨s, hs⟩
            exact ⟨swapcase k :: s, by simpa using hs⟩
          · simp at hw
      · split at hw
        · rcases List.mem_flatMap.mp hw with ⟨a, _, ha⟩
          split at ha
          · rcases ih _ _ w ha with ⟨s, hs⟩
            exact ⟨a :: s, by simpa using hs⟩
          · simp at ha
        · simp at hw

/-- Words found below distinct branch characters are distinct. -/
theorem branch_disjoint {pre : List Char} {c c' : Char} (hcc : c ≠ c')
    {u : List Char} (h1 : ∃ s, u = (pre ++ [c]) ++ s)
    (h2 : ∃ s, u = (pre ++ [c']) ++ s) : False := by
  rcases h1 with ⟨s, rfl⟩
  rcases h2 with ⟨s', h⟩
  rw [List.append_assoc, List.append_assoc] at h
  have := List.append_cancel_left h
  simp at this
  exact hcc this.1

theorem searchGo_flat_nodup (acc : AccMap) (ks pre : List Char)
    (scs : List (Char × Node α))
    (hkeys : scs.Pairwise (fun p q => p.1 ≠ q.1))
    (hwf : ∀ p ∈ scs, wfB p.2 = true)
    (hIH : ∀ (pre' : List Char) (n' : Node α), wfB n' = true →
      (searchGo acc pre' ks n').Nodup) :
    (scs.flatMap (fun p => searchGo acc (pre ++ [p.1]) ks p.2)).Nodup := by
  induction scs with
  | nil => simp
  | cons q rest ih =>
    rcases List.pairwise_cons.mp hkeys with ⟨hq, hrest⟩
    simp only [List.flatMap_cons]
    apply List.Nodup.append
    · exact hIH _ _ (hwf q (List.mem_cons_self q rest))
    · exact ih hrest (fun p hp => hwf p (List.mem_cons_of_mem q hp))
    · intro u hu hu'
      rcases List.mem_flatMap.mp hu' with ⟨p, hpmem, hp⟩
      exact branch_disjoint (hq p hpmem)
        (searchGo_mem_pre acc ks _ _ u hu)
        (searchGo_mem_pre acc ks _ _ u hp)

theorem searchGo_accflat_nodup (acc : AccMap) (ks pre : List Char)
    (vs : List Char) (n : Node α) (hvs : vs.Nodup) (hn : wfB n = true)
    (hIH : ∀ (pre' : List Char) (n' : Node α), wfB n' = true →
      (searchGo acc pre' ks n').Nodup) :
    (vs.flatMap (fun a =>
      match lookupChild a n.children with
      | some child => searchGo acc (pre ++ [a]) ks child
      | none => [])).Nodup := by
  induction vs with
  | nil => simp
  | cons a rest ih =>
    rcases List.pairwise_cons.mp hvs with ⟨ha, hrest⟩
    simp only [List.flatMap_cons]
    apply List.Nodup.append
    · split
      next child heq =>
        cases n with
        | mk v cs =>
          exact hIH _ _ ((wfB_children hn).2 (a, child) (lookupChild_mem heq))
      next => exact List.nodup_nil
    · exact ih hrest
    · intro u hu hu'
      rcases List.mem_flatMap.mp hu' with ⟨a', hamem, ha'⟩
      have h2 : ∃ s, u = (pre ++ [a']) ++ s := by
        revert ha'
        split
        · intro ha'; exact searchGo_mem_pre acc ks _ _ u ha'
        · intro ha'; simp at ha'
      have h1 : ∃ s, u = (pre ++ [a]) ++ s := by
        revert hu
        split
        · intro hu; exact searchGo_mem_pre acc ks _ _ u hu
        · intro hu; simp at hu
      exact branch_disjoint (ha a' hamem) h1 h2

theorem searchGo_nodup (acc : AccMap) (hacc : WFAcc acc) :
    ∀ (key pre : List Char) (n : Node α), wfB n = true →
      (∀ c ∈ key, c ≠ '?' → swapcase c ≠ c) →
      (searchGo acc pre key n).Nodup := by
  intro key
  induction key with
  | nil =>
    intro pre n hn hkey
    cases hv : n.val with
    | some x => simp [searchGo, hv]
    | none => simp [searchGo, hv]
  | cons k ks ih =>
    intro pre n hn hkey
    have hkey' : ∀ c ∈ ks, c ≠ '?' → swapcase c ≠ c :=
      fun c hc => hkey c (List.mem_cons_of_mem k hc)
    have hIH : ∀ (pre' : List Char) (n' : Node α), wfB n' = true →
        (searchGo acc pre' ks n').Nodup :=
      fun pre' n' h' => ih pre' n' h' hkey'
    simp only [searchGo]
    split
    · cases n with
      | mk v cs =>
        exact searchGo_flat_nodup acc ks pre (sortChildren cs)
          ((sortChildren_pairwise_lt (wfB_children hn).1).imp (fun h => ne_of_lt h))
          (fun p hp => (wfB_children hn).2 p ((insSort_perm _ cs).mem_iff.mp hp))
          hIH
    next hq =>
      have hswap : swapcase k ≠ k := hkey k (List.mem_cons_self k ks) hq
      cases n with
      | mk v cs =>
        apply List.Nodup.append
        · apply List.Nodup.append
          · split
            next child heq =>
              exact hIH _ _ ((wfB_children hn).2 (k, child) (lookupChild_mem heq))
            next => exact List.nodup_nil
          · split
            next child heq =>
              exact hIH _ _ ((wfB_children hn).2 _ (lookupChild_mem heq))
            next => exact List.nodup_nil
          · intro u hu hu'
            have h1 : ∃ s, u = (pre ++ [k]) ++ s := by
              revert hu
              split
              · intro hu; exact searchGo_mem_pre acc ks _ _ u hu
              · intro hu; simp at hu
            have h2 : ∃ s, u = (pre ++ [swapcase k]) ++ s := by
              revert hu'
              split
              · intro hu'; exact searchGo_mem_pre acc ks _ _ u hu'
              · intro hu'; simp at hu'
            exact branch_disjoint (Ne.symm hswap) h1 h2
        · split
          next vs heq =>
            rcases hacc (k, vs) (accLookup_mem heq) with ⟨hvs, hvar⟩
            exact searchGo_accflat_nodup acc ks pre vs _ hvs hn hIH
          next => exact List.nodup_nil
        · intro u hu hu'
          revert hu'
          split
          next vs heq =>
            intro hu'
            rcases hacc (k, vs) (accLookup_mem heq) with ⟨hvs, hvar⟩
            rcases List.mem_flatMap.mp hu' with ⟨a, hamem, ha⟩
            have h2 : ∃ s, u = (pre ++ [a]) ++ s := by
              revert ha
              split
              · intro ha; exact searchGo_mem_pre acc ks _ _ u ha
              · intro ha; simp at ha
            rcases List.mem_append.mp hu with hu | hu
            · have h1 : ∃ s, u = (pre ++ [k]) ++ s := by
                revert hu
                split
                · intro hu; exact searchGo_mem_pre acc ks _ _ u hu
                · intro hu; simp at hu
              exact branch_disjoint (Ne.symm (hvar a hamem).1) h1 h2
            · have h1 : ∃ s, u = (pre ++ [swapcase k]) ++ s := by
                revert hu
                split
                · intro hu; exact searchGo_mem_pre acc ks _ _ u hu
                · intro hu; simp at hu
              exact branch_disjoint (Ne.symm (hvar a hamem).2) h1 h2
          next =>
            intro hu'
            simp at hu'

/-- C6 counterexample: for a character with no case (here the digit `1`),
`swapcase` is the identity, so the exact-match branch and the case-swap
branch of `_search` descend into the SAME child and the matching word is
yielded twice: searching pattern `"1"` on a store containing only `"1"`
returns `["1", "1"]`. -/
theorem C6_counterexample :
    (((emptyTrie : Trie Bool).insertW [] ['1'] true).1.searchW
        ((emptyTrie : Trie Bool).insertW [] ['1'] true).2 ['1'] = [['1'], ['1']]) ∧
      ¬ (((emptyTrie : Trie Bool).insertW [] ['1'] true).1.searchW
          ((emptyTrie : Trie Bool).insertW [] ['1'] true).2 ['1']).Nodup := by
  constructor
  · decide
  · decide

/-- C6 (amended): wildcard search yields each matching word at most once
PROVIDED every non-sentinel pattern character is case-active (its
`swapcase` differs from it) — then the exact, case-swap and accent-variant
branches descend into pairwise-distinct children — and the accent index is
sane (variants distinct from each other, from the base, and from its case
swap, as `_insert` guarantees).  For a caseless pattern character the exact
and case-swap branches coincide and the word is yielded twice. -/
theorem C6_search_nodup {α : Type} (t : Trie α) (acc : AccMap) (key : List Char)
    (hw : wfB t.words = true) (hacc : WFAcc acc)
    (hkey : ∀ c ∈ key, c ≠ '?' → swapcase c ≠ c) :
    (t.searchW acc key).Nodup :=
  searchGo_nodup acc hacc key [] t.words hw hkey

/-- Witness for C6 at the concrete C1 scenario store and pattern `h??l?`. -/
theorem C6_search_nodup_witness :
    (wfB scenarioC1.1.words = true ∧ WFAcc scenarioC1.2 ∧
        (∀ c ∈ ['h', '?', '?', 'l', '?'], c ≠ '?' → swapcase c ≠ c)) ∧
      (scenarioC1.1.searchW scenarioC1.2 ['h', '?', '?', 'l', '?']).Nodup :=
  ⟨⟨by decide, by unfold WFAcc; decide, by decide⟩,
    C6_search_nodup scenarioC1.1 scenarioC1.2 ['h', '?', '?', 'l', '?']
      (by decide) (by unfold WFAcc; decide) (by decide)⟩

/-! ## Claim C7: spellcheck output properties -/

theorem spellGo_le3 (acc : AccMap) : ∀ (fuel : Nat) (pre key : List Char)
    (diff : Nat) (n : Node α) (p : Nat × List Char),
    p ∈ spellGo acc fuel pre key diff n → p.1 ≤ 3 := by
  intro fuel
  induction fuel with
  | zero => intro pre key diff n p hp; simp [spellGo] at hp
  | succ fuel ih =>
    intro pre key diff n p hp
    cases key with
    | nil =>
      simp only [spellGo] at hp
      split at hp
      · simp at hp
      next hdiff =>
        cases hv : n.val with
        | some x =>
          simp only [hv] at hp
          rcases List.mem_singleton.mp hp with rfl
          simpa using Nat.le_of_not_lt hdiff
        | none => simp [hv] at hp
    | cons expect keyRest =>
      simp only [spellGo] at hp
      split at hp
      · simp at hp
      next hdiff =>
        rcases List.mem_append.mp hp with hp | hp
        · rcases List.mem_append.mp hp with hp | hp
          · cases keyRest with
            | nil => simp at hp
            | cons nextCh keyRest2 =>
              simp only at hp
              cases h1 : lookupChild nextCh n.children with
              | none => simp [h1] at hp
              | some m1 =>
                simp only [h1] at hp
                cases h2 : lookupChild expect m1.children with
                | none => simp [h2] at hp
                | some m2 =>
                  simp only [h2] at hp
                  exact ih _ _ _ _ p hp
          · exact ih _ _ _ _ p hp
        · rcases List.mem_flatMap.mp hp with ⟨q, _, hq⟩
          rcases List.mem_append.mp hq with hq | hq
          · exact ih _ _ _ _ p hq
          · split at hq
            · exact ih _ _ _ _ p hq
            · split at hq
              · exact ih _ _ _ _ p hq
              · exact ih _ _ _ _ p hq

/-- `maybe.get(word)`: dict lookup in the minimum-cost map. -/
def lookupW : List (List Char × Nat) → List Char → Option Nat
  | [], _ => none
  | (w', d') :: rest, w => if w' = w then some d' else lookupW rest w

theorem lookupW_updateMin_self (m : List (List Char × Nat)) (d : Nat) (w : List Char) :
    lookupW (updateMin m d w) w = some (Nat.min ((lookupW m w).getD 100) d) := by
  induction m with
  | nil => simp [updateMin, lookupW]
  | cons p rest ih =>
    obtain ⟨w', d'⟩ := p
    by_cases hw : w' = w
    · subst hw
      simp [updateMin, lookupW]
    · simp [updateMin, lookupW, hw, ih]

theorem lookupW_updateMin_ne {m : List (List Char × Nat)} {d : Nat} {w w' : List Char}
    (h : w ≠ w') :
    lookupW (updateMin m d w) w' = lookupW m w' := by
  induction m with
  | nil => simp [updateMin, lookupW, h]
  | cons p rest ih =>
    obtain ⟨w'', d''⟩ := p
    by_cases hw : w'' = w
    · subst hw
      simp [updateMin, lookupW, h]
    · simp only [updateMin, if_neg hw, lookupW]
      by_cases hw' : w'' = w'
      · simp [hw']
      · simp [hw', ih]

theorem mem_updateMin_keys {m : List (List Char × Nat)} {d : Nat} {w x : List Char}
    (h : x ∈ (updateMin m d w).map Prod.fst) : x ∈ m.map Prod.fst ∨ x = w := by
  induction m with
  | nil => simpa [updateMin] using h
  | cons p rest ih =>
    obtain ⟨w', d'⟩ := p
    simp only [updateMin] at h
    split at h
    next hw =>
      subst hw
      simp only [List.map_cons, List.mem_cons] at h ⊢
      tauto
    next hw =>
      simp only [List.map_cons, List.mem_cons] at h ⊢
      rcases h with h | h
      · exact Or.inl (Or.inl h)
      · rcases ih h with h | h
        · exact Or.inl (Or.inr h)
        · exact Or.inr h

theorem updateMin_keys_nodup {m : List (List Char × Nat)} {d : Nat} {w : List Char}
    (h : (m.map Prod.fst).Nodup) : ((updateMin m d w).map Prod.fst).Nodup := by
  induction m with
  | nil => simp [updateMin]
  | cons p rest ih =>
    obtain ⟨w', d'⟩ := p
    rcases List.pairwise_cons.mp h with ⟨hw', hrest⟩
    by_cases hw : w' = w
    · subst hw
      simpa [updateMin] using h
    · simp only [updateMin, if_neg hw, List.map_cons]
      refine List.pairwise_cons.mpr ⟨?_, ih hrest⟩
      intro x hx
      rcases mem_updateMin_keys hx with hx | hx
      · exact hw' x hx
      · exact hx ▸ hw

theorem lookupW_of_mem : ∀ {m : List (List Char × Nat)},
    (m.map Prod.fst).Nodup → ∀ {p : List Char × Nat}, p ∈ m →
      lookupW m p.1 = some p.2 := by
  intro m
  induction m with
  | nil => intro _ p hp; simp at hp
  | cons q rest ih =>
    intro hnd p hp
    obtain ⟨w', d'⟩ := q
    simp only [List.map_cons] at hnd
    rcases List.pairwise_cons.mp hnd with ⟨hw', hrest⟩
    rcases List.mem_cons.mp hp with rfl | hp
    · simp [lookupW]
    · have hne : w' ≠ p.1 :=
        hw' p.1 (List.mem_map.mpr ⟨p, hp, rfl⟩)
      simp only [lookupW, if_neg hne]
      exact ih hrest hp

theorem foldl_updateMin_keys_nodup :
    ∀ (ys : List (Nat × List Char)) (m : List (List Char × Nat)),
    (m.map Prod.fst).Nodup →
    ((ys.foldl (fun m q => updateMin m q.1 q.2) m).map Prod.fst).Nodup := by
  intro ys
  induction ys with
  | nil => intro m hm; exact hm
  | cons q rest ih =>
    intro m hm
    exact ih _ (updateMin_keys_nodup hm)

theorem foldl_min_le_init : ∀ (l : List Nat) (a : Nat),
    List.foldl Nat.min a l ≤ a := by
  intro l
  induction l with
  | nil => intro a; exact le_refl a
  | cons x rest ih =>
    intro a
    exact le_trans (ih (Nat.min a x)) (Nat.min_le_left a x)

theorem foldl_min_le_mem : ∀ (l : List Nat) (a c : Nat), c ∈ l →
    List.foldl Nat.min a l ≤ c := by
  intro l
  induction l with
  | nil => intro a c hc; simp at hc
  | cons x rest ih =>
    intro a c hc
    rcases List.mem_cons.mp hc with rfl | hc
    · exact le_trans (foldl_min_le_init rest (Nat.min a c)) (Nat.min_le_right a c)
    · exact ih _ c hc

theorem foldl_min_mem_or : ∀ (l : List Nat) (a : Nat),
    List.foldl Nat.min a l = a ∨ List.foldl Nat.min a l ∈ l := by
  intro l
  induction l with
  | nil => intro a; exact Or.inl rfl
  | cons x rest ih =>
    intro a
    rcases ih (Nat.min a x) with h | h
    · rcases le_total a x with hax | hax
      · left
        simp only [List.foldl_cons, h]
        exact Nat.min_eq_left hax
      · right
        simp only [List.foldl_cons]
        rw [h]
        have hmin : Nat.min a x = x := Nat.min_eq_right hax
        rw [hmin]
        exact List.mem_cons_self x rest
    · exact Or.inr (List.mem_cons_of_mem x h)

theorem lookupW_foldl : ∀ (ys : List (Nat × List Char))
    (m : List (List Char × Nat)) (w : List Char),
    lookupW (ys.foldl (fun m q => updateMin m q.1 q.2) m) w =
      if (ys.filter (fun q => decide (q.2 = w))).map Prod.fst = [] then lookupW m w
      else some (List.foldl Nat.min ((lookupW m w).getD 100)
        ((ys.filter (fun q => decide (q.2 = w))).map Prod.fst)) := by
  intro ys
  induction ys with
  | nil => intro m w; simp
  | cons q rest ih =>
    intro m w
    obtain ⟨d, wq⟩ := q
    by_cases hw : wq = w
    · subst hw
      have hf : List.filter (fun q => decide (q.2 = wq)) ((d, wq) :: rest)
          = (d, wq) :: List.filter (fun q => decide (q.2 = wq)) rest := by
        simp
      rw [List.foldl_cons, hf, List.map_cons]
      rw [ih (updateMin m d wq) wq, lookupW_updateMin_self m d wq]
      cases hrest : (rest.filter (fun q => decide (q.2 = wq))).map Prod.fst with
      | nil => simp [hrest]
      | cons c cs => simp [hrest]
    · have hf : List.filter (fun q => decide (q.2 = w)) ((d, wq) :: rest)
          = List.filter (fun q => decide (q.2 = w)) rest := by
        simp [hw]
      rw [List.foldl_cons, hf]
      rw [ih (updateMin m d wq) w]
      rw [lookupW_updateMin_ne hw]

theorem pairLe_total (p q : Nat × List Char) :
    pairLe p q = true ∨ pairLe q p = true := by
  unfold pairLe
  rcases lt_trichotomy p.1 q.1 with h | h | h
  · left; simp [h]
  · rcases lexLt_total p.2 q.2 with he | hl | hl
    · left; simp [h, he]
    · left; simp [h, hl]
    · right; simp [h.symm, hl]
  · right; simp [h]

theorem pairLe_trans (p q r : Nat × List Char) (h1 : pairLe p q = true)
    (h2 : pairLe q r = true) : pairLe p r = true := by
  unfold pairLe at h1 h2 ⊢
  simp only [Bool.or_eq_true, Bool.and_eq_true, decide_eq_true_eq] at h1 h2 ⊢
  rcases h1 with h1 | ⟨h1, h1'⟩ <;> rcases h2 with h2 | ⟨h2, h2'⟩
  · exact Or.inl (lt_trans h1 h2)
  · exact Or.inl (h2 ▸ h1)
  · exact Or.inl (h1 ▸ h2)
  · refine Or.inr ⟨h1.trans h2, ?_⟩
    rcases h1' with he | hl
    · rcases h2' with he2 | hl2
      · exact Or.inl (he.trans he2)
      · exact Or.inr (he ▸ hl2)
    · rcases h2' with he2 | hl2
      · exact Or.inr (he2 ▸ hl)
      · exact Or.inr (lexLt_trans hl hl2)

/-- C7: for every store and query word, every pair returned by `spellcheck`
has total edit cost at most 3 under the custom cost table; the reported
distance of each returned word is exactly the minimum cost observed for it
among the yields of the backtracking search; each distinct word appears at
most once; the list is sorted ascending by distance with lexicographic
tie-break on the word; and `distance` returns the same list. -/
theorem C7_spellcheck_bounded_min_sorted {α : Type} (t : Trie α) (acc : AccMap)
    (key : List Char) :
    (∀ p ∈ t.spellcheckW acc key, p.1 ≤ 3) ∧
    (∀ p ∈ t.spellcheckW acc key,
      (∃ q ∈ spellGo acc (key.length + 4) [] key 0 t.words, q.2 = p.2 ∧ q.1 = p.1) ∧
      ∀ q ∈ spellGo acc (key.length + 4) [] key 0 t.words, q.2 = p.2 → p.1 ≤ q.1) ∧
    ((t.spellcheckW acc key).map Prod.snd).Nodup ∧
    ((t.spellcheckW acc key).Pairwise (fun p q => pairLe p q = true)) ∧
    t.distanceW acc key = t.spellcheckW acc key := by
  have hres : t.spellcheckW acc key =
      insSort pairLe
        (((spellGo acc (key.length + 4) [] key 0 t.words).foldl
          (fun m p => updateMin m p.1 p.2) []).map fun p => (p.2, p.1)) := rfl
  have hnd : (((spellGo acc (key.length + 4) [] key 0 t.words).foldl
      (fun m p => updateMin m p.1 p.2) []).map Prod.fst).Nodup :=
    foldl_updateMin_keys_nodup _ [] (by simp)
  have hmem : ∀ p : Nat × List Char, p ∈ t.spellcheckW acc key →
      (p.2, p.1) ∈ (spellGo acc (key.length + 4) [] key 0 t.words).foldl
        (fun m p => updateMin m p.1 p.2) [] := by
    intro p hp
    rw [hres] at hp
    rcases List.mem_map.mp (mem_insSort.mp hp) with ⟨x, hx, hxe⟩
    obtain ⟨x1, x2⟩ := x
    cases hxe
    exact hx
  have hchar : ∀ w d, (w, d) ∈ (spellGo acc (key.length + 4) [] key 0 t.words).foldl
      (fun m p => updateMin m p.1 p.2) [] →
      ((spellGo acc (key.length + 4) [] key 0 t.words).filter
        (fun q => decide (q.2 = w))).map Prod.fst ≠ [] ∧
      d = List.foldl Nat.min 100
        (((spellGo acc (key.length + 4) [] key 0 t.words).filter
          (fun q => decide (q.2 = w))).map Prod.fst) := by
    intro w d hwd
    have hl := lookupW_of_mem hnd hwd
    rw [lookupW_foldl] at hl
    by_cases hc : ((spellGo acc (key.length + 4) [] key 0 t.words).filter
        (fun q => decide (q.2 = w))).map Prod.fst = []
    · rw [if_pos hc] at hl
      simp [lookupW] at hl
    · rw [if_neg hc] at hl
      simp only [lookupW, Option.getD_none, Option.some.injEq] at hl
      exact ⟨hc, hl.symm⟩
  have hminp : ∀ p : Nat × List Char, p ∈ t.spellcheckW acc key →
      (∃ q ∈ spellGo acc (key.length + 4) [] key 0 t.words, q.2 = p.2 ∧ q.1 = p.1) ∧
      ∀ q ∈ spellGo acc (key.length + 4) [] key 0 t.words, q.2 = p.2 → p.1 ≤ q.1 := by
    intro p hp
    rcases hchar p.2 p.1 (hmem p hp) with ⟨hne, hd⟩
    constructor
    · rcases foldl_min_mem_or (((spellGo acc (key.length + 4) [] key 0 t.words).filter
          (fun q => decide (q.2 = p.2))).map Prod.fst) 100 with h | h
      · exfalso
        rcases List.exists_mem_of_ne_nil _ hne with ⟨c, hc⟩
        have h1 := foldl_min_le_mem _ 100 c hc
        rcases List.mem_map.mp hc with ⟨q, hq, rfl⟩
        have h3 := spellGo_le3 acc _ _ _ _ _ q (List.mem_of_mem_filter hq)
        omega
      · rw [← hd] at h
        rcases List.mem_map.mp h with ⟨q, hq, hq1⟩
        refine ⟨q, List.mem_of_mem_filter hq, ?_, hq1⟩
        have := List.of_mem_filter hq
        simpa using this
    · intro q hq hqw
      have hmem2 : q.1 ∈ (((spellGo acc (key.length + 4) [] key 0 t.words).filter
          (fun q => decide (q.2 = p.2))).map Prod.fst) :=
        List.mem_map.mpr ⟨q, List.mem_filter.mpr ⟨hq, by simp [hqw]⟩, rfl⟩
      rw [hd]
      exact foldl_min_le_mem _ 100 _ hmem2
  refine ⟨?_, hminp, ?_, ?_, rfl⟩
  · intro p hp
    rcases (hminp p hp).1 with ⟨q, hq, _, hq1⟩
    have := spellGo_le3 acc _ _ _ _ _ q hq
    omega
  · rw [hres]
    have hperm := (insSort_perm pairLe
      (((spellGo acc (key.length + 4) [] key 0 t.words).foldl
        (fun m p => updateMin m p.1 p.2) []).map fun p => (p.2, p.1))).map Prod.snd
    have heq : ((((spellGo acc (key.length + 4) [] key 0 t.words).foldl
        (fun m p => updateMin m p.1 p.2) []).map fun p => (p.2, p.1)).map Prod.snd)
        = ((spellGo acc (key.length + 4) [] key 0 t.words).foldl
          (fun m p => updateMin m p.1 p.2) []).map Prod.fst := by
      simp [List.map_map, Function.comp]
    rw [heq] at hperm
    exact hperm.nodup_iff.mpr hnd
  · rw [hres]
    exact insSort_pairwise pairLe_total pairLe_trans _

/-! ## Claim C9: symmetry of the customized distance -/

/-- C9 counterexample: the claimed symmetry for substitution-only
differences fails in two independent ways.  (1) Accents: with `u = "é"`
and `v = "e"` (equal length, one substitution), the store holding `"é"`
has `e → {é}` in its accent index, so `spellcheck("e")` reports `é` at
distance 1, while the store holding `"e"` has an empty index, so
`spellcheck("é")` reports `e` at distance 2.  (2) Even all-ASCII,
equal-length, multi-letter pairs: `spellcheck("hello")` on the store holding
`"shell"` reports `shell` at distance 2 (insert `s`, match `hell`, delete
`o`), but `spellcheck("shell")` on the store holding `"hello"` reports
nothing â the mirrored route would need to insert the trailing `o` after the
query is exhausted, and `_spellcheck` never explores the insert branch once
`key` is empty, so `hello` stays at cost 4 and is pruned. -/
theorem C9_counterexample :
    (((emptyTrie : Trie Bool).insertW [] ['é'] true).1.spellcheckW
        ((emptyTrie : Trie Bool).insertW [] ['é'] true).2 ['e'] = [(1, ['é'])]) ∧
      (((emptyTrie : Trie Bool).insertW [] ['e'] true).1.spellcheckW
          ((emptyTrie : Trie Bool).insertW [] ['e'] true).2 ['é'] = [(2, ['e'])]) ∧
      (((emptyTrie : Trie Bool).insertW [] "shell".toList true).1.spellcheckW
          ((emptyTrie : Trie Bool).insertW [] "shell".toList true).2 "hello".toList
        = [(2, "shell".toList)]) ∧
      (((emptyTrie : Trie Bool).insertW [] "hello".toList true).1.spellcheckW
          ((emptyTrie : Trie Bool).insertW [] "hello".toList true).2 "shell".toList
        = []) := by
  refine ⟨by decide, by decide, by decide, by decide⟩

theorem toNat_ofNat_valid (n : Nat) (h : n.isValidChar) :
    (Char.ofNat n).toNat = n := by
  simp [Char.ofNat, h, Char.toNat, Char.ofNatAux, UInt32.toNat, BitVec.toNat_ofNatLt]

theorem char_le_iff_toNat {c d : Char} : c ≤ d ↔ c.toNat ≤ d.toNat := Iff.rfl

theorem char_eq_iff_toNat {c d : Char} : c = d ↔ c.toNat = d.toNat := by
  constructor
  · intro h; rw [h]
  · intro h
    have h2 := Char.ofNat_toNat c
    rw [h, Char.ofNat_toNat] at h2
    exact h2.symm

/-- On ASCII characters the modelled `swapcase` is an involution (a-z and
A-Z swap ranges; every other ASCII character is fixed). -/
theorem swapcase_swapcase_ascii (c : Char) (h : isascii c = true) :
    swapcase (swapcase c) = c := by
  have hc : c.toNat ≤ 127 := by simpa [isascii] using h
  have hne1 : c ≠ 'é' := by
    intro he
    rw [char_eq_iff_toNat] at he
    have h9 : ('é').toNat = 233 := rfl
    omega
  have hne2 : c ≠ 'É' := by
    intro he
    rw [char_eq_iff_toNat] at he
    have h9 : ('É').toNat = 201 := rfl
    omega
  by_cases hlow : 'a' ≤ c ∧ c ≤ 'z'
  · have h97 : 97 ≤ c.toNat := hlow.1
    have h122 : c.toNat ≤ 122 := hlow.2
    have hval : (c.toNat - 32).isValidChar := Or.inl (by omega)
    have htn : (Char.ofNat (c.toNat - 32)).toNat = c.toNat - 32 :=
      toNat_ofNat_valid _ hval
    have hsw1 : swapcase c = Char.ofNat (c.toNat - 32) := by
      unfold swapcase isLowerCp upperCp
      simp [hlow.1, hlow.2]
    rw [hsw1]
    have hdlow : isLowerCp (Char.ofNat (c.toNat - 32)) = false := by
      unfold isLowerCp
      have h1 : ¬ ('a' ≤ Char.ofNat (c.toNat - 32)) := by
        rw [char_le_iff_toNat]
        have h9 : ('a').toNat = 97 := rfl
        omega
      have h2 : Char.ofNat (c.toNat - 32) ≠ 'é' := by
        rw [Ne, char_eq_iff_toNat]
        have h9 : ('é').toNat = 233 := rfl
        omega
      simp [h1, h2]
    have hdupp : isUpperCp (Char.ofNat (c.toNat - 32)) = true := by
      unfold isUpperCp
      have h1 : 'A' ≤ Char.ofNat (c.toNat - 32) := by
        rw [char_le_iff_toNat]
        have h9 : ('A').toNat = 65 := rfl
        omega
      have h2 : Char.ofNat (c.toNat - 32) ≤ 'Z' := by
        rw [char_le_iff_toNat]
        have h9 : ('Z').toNat = 90 := rfl
        omega
      simp [h1, h2]
    have h1 : 'A' ≤ Char.ofNat (c.toNat - 32) := by
      rw [char_le_iff_toNat]
      have h9 : ('A').toNat = 65 := rfl
      omega
    have h2 : Char.ofNat (c.toNat - 32) ≤ 'Z' := by
      rw [char_le_iff_toNat]
      have h9 : ('Z').toNat = 90 := rfl
      omega
    have hfinal : swapcase (Char.ofNat (c.toNat - 32))
        = lowerCp (Char.ofNat (c.toNat - 32)) := by
      unfold swapcase
      rw [hdlow, hdupp]
      simp
    rw [hfinal]
    unfold lowerCp
    rw [if_pos (by simp [h1, h2])]
    rw [htn]
    have h3 : c.toNat - 32 + 32 = c.toNat := by omega
    rw [h3, Char.ofNat_toNat]
  · by_cases hupp : 'A' ≤ c ∧ c ≤ 'Z'
    · have h65 : 65 ≤ c.toNat := hupp.1
      have h90 : c.toNat ≤ 90 := hupp.2
      have hval : (c.toNat + 32).isValidChar := Or.inl (by omega)
      have htn : (Char.ofNat (c.toNat + 32)).toNat = c.toNat + 32 :=
        toNat_ofNat_valid _ hval
      have hclow : isLowerCp c = false := by
        unfold isLowerCp
        have h1 : ¬ ('a' ≤ c) := by
          rw [char_le_iff_toNat]
          have h9 : ('a').toNat = 97 := rfl
          omega
        simp [h1, hne1]
      have hcupp : isUpperCp c = true := by
        unfold isUpperCp
        simp [hupp.1, hupp.2]
      have hsw1 : swapcase c = Char.ofNat (c.toNat + 32) := by
        unfold swapcase lowerCp
        rw [hclow, hcupp]
        simp [hupp.1, hupp.2]
      rw [hsw1]
      have hdlow : isLowerCp (Char.ofNat (c.toNat + 32)) = true := by
        unfold isLowerCp
        have h1 : 'a' ≤ Char.ofNat (c.toNat + 32) := by
          rw [char_le_iff_toNat]
          have h9 : ('a').toNat = 97 := rfl
          omega
        have h2 : Char.ofNat (c.toNat + 32) ≤ 'z' := by
          rw [char_le_iff_toNat]
          have h9 : ('z').toNat = 122 := rfl
          omega
        simp [h1, h2]
      have h1 : 'a' ≤ Char.ofNat (c.toNat + 32) := by
        rw [char_le_iff_toNat]
        have h9 : ('a').toNat = 97 := rfl
        omega
      have h2 : Char.ofNat (c.toNat + 32) ≤ 'z' := by
        rw [char_le_iff_toNat]
        have h9 : ('z').toNat = 122 := rfl
        omega
      have hfinal : swapcase (Char.ofNat (c.toNat + 32))
          = upperCp (Char.ofNat (c.toNat + 32)) := by
        unfold swapcase
        rw [hdlow]
        simp
      rw [hfinal]
      unfold upperCp
      rw [if_pos (by simp [h1, h2])]
      rw [htn]
      have h3 : c.toNat + 32 - 32 = c.toNat := by omega
      rw [h3, Char.ofNat_toNat]
    · have hclow : isLowerCp c = false := by
        unfold isLowerCp
        simp only [Bool.or_eq_false_iff, Bool.and_eq_false_iff]
        constructor
        · by_cases h1 : 'a' ≤ c
          · right
            simp only [decide_eq_false_iff_not]
            intro h2
            exact hlow ⟨h1, h2⟩
          · left
            simp only [decide_eq_false_iff_not]
            exact h1
        · simp [hne1]
      have hcupp : isUpperCp c = false := by
        unfold isUpperCp
        simp only [Bool.or_eq_false_iff, Bool.and_eq_false_iff]
        constructor
        · by_cases h1 : 'A' ≤ c
          · right
            simp only [decide_eq_false_iff_not]
            intro h2
            exact hupp ⟨h1, h2⟩
          · left
            simp only [decide_eq_false_iff_not]
            exact h1
        · simp [hne2]
      have hsw : swapcase c = c := by
        unfold swapcase
        rw [hclow, hcupp]
        simp
      rw [hsw, hsw]

/-- One direction of the amended C9: a store holding exactly the one-letter
ASCII word `a`, queried with a single different letter `b`, reports `a` at
distance 1 when `b`'s case swap is `a` (reduced substitution) and at
distance 2 otherwise (plain substitution; the insert-then-delete route also
costs 2). -/
theorem spellcheck_single_sub (a b : Char) (v : Bool)
    (ha : isascii a = true) (hab : a ≠ b) :
    ((emptyTrie : Trie Bool).insertW [] [a] v).1.spellcheckW
      ((emptyTrie : Trie Bool).insertW [] [a] v).2 [b]
      = [(if swapcase b = a then 1 else 2, [a])] := by
  have hnorm : normalize [a] = [a] := by simp [normalize, ha]
  have hreg : registerLetter [] a = [] := by simp [registerLetter, ha]
  have hins : (emptyTrie : Trie Bool).insertW [] [a] v
      = (⟨Node.mk none [(a, Node.mk (some v) [])], 1⟩, []) := by
    simp [Trie.insertW, hnorm, hreg, insertGo, lookupChild, emptyTrie]
  rw [hins]
  show insSort pairLe ((List.foldl (fun m p => updateMin m p.1 p.2) []
    (spellGo [] (1 + 4) [] [b] 0 (Node.mk none [(a, Node.mk (some v) [])]))).map
      (fun p => (p.2, p.1))) = [(if swapcase b = a then 1 else 2, [a])]
  have hab' : (a = b) = False := by simp [hab]
  by_cases hsw : swapcase b = a
  · have hsw' : (swapcase b = a) = True := by simp [hsw]
    simp only [spellGo, Node.val, Node.children, sortChildren, insSort, insertLe,
      lookupChild, accLookup, List.flatMap_cons, List.flatMap_nil, hab', hsw']
    norm_num
    simp [updateMin, insSort, insertLe, Nat.min_def]
  · have hsw' : (swapcase b = a) = False := by simp [hsw]
    simp only [spellGo, Node.val, Node.children, sortChildren, insSort, insertLe,
      lookupChild, accLookup, List.flatMap_cons, List.flatMap_nil, hab', hsw']
    norm_num
    simp [updateMin, insSort, insertLe, Nat.min_def]

/-- C9 (amended): for one-letter ASCII words `u = a`, `v = b` with `a ≠ b`
(the scope the counterexamples leave: accent pairs and multi-letter words
are asymmetric), the customized edit distance is symmetric: the distance
reported for `u` by `spellcheck(v)` on a store holding exactly `u` equals
the distance `d` reported for `v` by `spellcheck(u)` on a store holding
exactly `v`; `d` is 1 for a case-swap pair and 2 otherwise â in particular a
single differing letter that is not case- or accent-related costs exactly 2
in both directions. -/
theorem C9_substitution_symmetric (a b : Char) (va vb : Bool)
    (ha : isascii a = true) (hb : isascii b = true) (hab : a ≠ b) :
    ∃ d : Nat,
      (((emptyTrie : Trie Bool).insertW [] [a] va).1.spellcheckW
          ((emptyTrie : Trie Bool).insertW [] [a] va).2 [b] = [(d, [a])]) ∧
      (((emptyTrie : Trie Bool).insertW [] [b] vb).1.spellcheckW
          ((emptyTrie : Trie Bool).insertW [] [b] vb).2 [a] = [(d, [b])]) ∧
      d = (if swapcase b = a then 1 else 2) := by
  refine ⟨if swapcase b = a then 1 else 2,
    spellcheck_single_sub a b va ha hab, ?_, rfl⟩
  rw [spellcheck_single_sub b a vb hb (Ne.symm hab)]
  have hiff : (if swapcase a = b then (1 : Nat) else 2)
      = if swapcase b = a then 1 else 2 := by
    by_cases hsw : swapcase b = a
    · have h2 : swapcase a = b := by
        rw [← hsw, swapcase_swapcase_ascii b hb]
      simp [hsw, h2]
    · have h2 : swapcase a ≠ b := by
        intro he
        apply hsw
        rw [← he, swapcase_swapcase_ascii a ha]
      simp [hsw, h2]
  rw [hiff]

/-- Witness for C9 at `a = 'x'`, `b = 'y'`. -/
theorem C9_substitution_symmetric_witness :
    (isascii 'x' = true ∧ isascii 'y' = true ∧ 'x' ≠ 'y') ∧
      ∃ d : Nat,
        (((emptyTrie : Trie Bool).insertW [] ['x'] true).1.spellcheckW
            ((emptyTrie : Trie Bool).insertW [] ['x'] true).2 ['y'] = [(d, ['x'])]) ∧
        (((emptyTrie : Trie Bool).insertW [] ['y'] false).1.spellcheckW
            ((emptyTrie : Trie Bool).insertW [] ['y'] false).2 ['x'] = [(d, ['y'])]) ∧
        d = (if swapcase 'y' = 'x' then 1 else 2) :=
  ⟨⟨by decide, by decide, by decide⟩,
    C9_substitution_symmetric 'x' 'y' true false (by decide) (by decide) (by decide)⟩

end Pytrie
